import Mathlib

/-!
# Verification of the snake-rl Q-learning repository

Shallow embedding of the core of the repository:

* `src/env.py`   — the Snake grid simulator (`SnakeEnv`), embedded as pure
  functions over an explicit `EnvState`; the only randomness (food placement
  via `rng.choice`) is modelled by an extra `Nat` argument selecting an index
  into the canonical list of free cells; a Python exception (e.g. the
  `IndexError` that `rng.choice` raises on an empty list) is modelled by
  `Option`-valued results.
* `src/agent.py`  — the tabular Q-learning agent (`QTable`), with the
  `defaultdict` modelled as an association list plus an explicit
  lazy-insertion access function; the two RNG draws of `act`
  (`random.random()` and the choice among tied maximizers) are modelled by
  explicit parameters `u : ℚ` and `j : Nat`.
* `src/evaluate.py` — the greedy evaluation loop, with the per-episode food
  RNG abstracted by functions `rr` (reset picks) and `kss` (step picks).

Floating-point values of the source are modelled by exact rationals `ℚ`;
`np.std` (a square root) is represented by the variance it is the root of.
-/

namespace SnakeRL

/-- Grid cell, mirroring Python 2-tuples of ints (which may be negative,
e.g. the initial tail `(mid - 1, mid)` on tiny grids). -/
abbrev Cell := Int × Int

/-- Directions `DIRS = [(0,-1),(1,0),(0,1),(-1,0)]` — Up, Right, Down, Left. -/
def DIRS : List Cell := [(0, -1), (1, 0), (0, 1), (-1, 0)]

/-- Lookup `DIRS[d]`; the default is irrelevant since `d` is always kept `< 4`. -/
def dirVec (d : Nat) : Cell := DIRS.getD d (0, 0)

/-- Python `SnakeEnv._out_of_bounds`: `x < 0 or x >= n or y < 0 or y >= n`. -/
def outOfBounds (n : Nat) (c : Cell) : Bool :=
  c.1 < 0 || (n : Int) ≤ c.1 || c.2 < 0 || (n : Int) ≤ c.2

/-- Python `SnakeEnv._turn`: `0` turns left, `2` turns right, anything else keeps
the heading.  Python computes `(dir - 1) % 4`, which for a nonnegative `dir`
equals `(dir + 3) % 4` (Python's `%` returns a nonnegative result). -/
def turn (dir : Nat) (action : Int) : Nat :=
  if action = 0 then (dir + 3) % 4
  else if action = 2 then (dir + 1) % 4
  else dir

/-- Python `SnakeEnv._manhattan`. -/
def manhattan (a b : Cell) : Nat :=
  (a.1 - b.1).natAbs + (a.2 - b.2).natAbs

/-- The mutable state of a `SnakeEnv` instance (rendering fields omitted:
they never influence the simulation). -/
structure EnvState where
  n : Nat
  dir : Nat
  snake : List Cell
  food : Cell
  steps : Nat
  prevDist : Nat
deriving Repr, DecidableEq

/-- Head cell `self.snake[0]` (the snake is never empty in any
reachable state). -/
def headCell (e : EnvState) : Cell := e.snake.headD (0, 0)

/-- All grid cells `{(x, y) for x in range(n) for y in range(n)}`, in a
canonical order (the Python source builds a set, whose iteration order is
unspecified; the RNG-index argument below ranges over all positions, so
every free cell remains choosable). -/
def allCells (n : Nat) : List Cell :=
  (List.range n).flatMap
    (fun (x : Nat) => (List.range n).map (fun (y : Nat) => (Int.ofNat x, Int.ofNat y)))

/-- The cells not occupied by the snake. -/
def freeCells (n : Nat) (snake : List Cell) : List Cell :=
  (allCells n).filter (fun c => decide (c ∉ snake))

/-- Python `SnakeEnv._place_food`: `rng.choice(list(cells))`, which raises
`IndexError` when no cell is free (modelled by `none`); `k` models the RNG
draw. -/
def placeFood (n : Nat) (snake : List Cell) (k : Nat) : Option Cell :=
  let free := freeCells n snake
  free.get? (k % free.length)

/-- The cell one step from the head along direction `(dir + rel) % 4`
(Python `%` on ints, i.e. `Int.emod`, which is nonnegative here). -/
def nextCellRel (e : EnvState) (rel : Int) : Cell :=
  let d := (((e.dir : Int) + rel) % 4).toNat
  let v := dirVec d
  ((headCell e).1 + v.1, (headCell e).2 + v.2)

/-- Python `SnakeEnv._danger`: 1 if the cell one step in relative direction `rel`
is off-grid or in `self.snake[:-1]`. -/
def dangerRel (e : EnvState) (rel : Int) : Nat :=
  if outOfBounds e.n (nextCellRel e rel) || decide (nextCellRel e rel ∈ e.snake.dropLast)
  then 1 else 0

/-- Sign helper of `SnakeEnv._state`:
`0 if f == h else (1 if f > h else -1)`. -/
def signTo (h f : Int) : Int :=
  if f = h then 0 else if h < f then 1 else -1

/-- The encoded state tuple
`(danger_left, danger_front, danger_right, sdx, sdy, dir)`. -/
structure Encoded where
  dl : Nat
  df : Nat
  dr : Nat
  sdx : Int
  sdy : Int
  dir : Nat
deriving Repr, DecidableEq

/-- Python `SnakeEnv._state`. -/
def encode (e : EnvState) : Encoded :=
  ⟨dangerRel e (-1), dangerRel e 0, dangerRel e 1,
   signTo (headCell e).1 e.food.1, signTo (headCell e).2 e.food.2, e.dir⟩

/-- The 4-tuple returned by `SnakeEnv.step`, plus the environment state
after the call.  `info` is `none` for the empty dict `{}` and `some b` for
`{"ate": b}`. -/
structure StepOut where
  obs : Encoded
  reward : ℚ
  done : Bool
  info : Option Bool
  env : EnvState
deriving Repr, DecidableEq

/-- The tail of `SnakeEnv.step` after the move is committed: reward
accumulation, distance shaping, bookkeeping, and the return tuple.
`e2` already holds the post-move snake and food; `nh` is the new head. -/
def stepFinish (e2 : EnvState) (nh : Cell) (ate : Bool) : StepOut :=
  let reward : ℚ := -1 / 100 + (if ate then 10 else 0)
  let dist := manhattan nh e2.food
  let reward := if dist < e2.prevDist then reward + 5 / 100
                else if e2.prevDist < dist then reward - 2 / 100
                else reward
  let e3 : EnvState := { e2 with prevDist := dist, steps := e2.steps + 1 }
  ⟨encode e3, reward, false, some ate, e3⟩

/-- Python `SnakeEnv.step`.  Here `k` models the RNG draw of a possible food placement;
`none` models the `IndexError` raised when the snake has eaten and no free
cell remains. -/
def stepE (e : EnvState) (action : Int) (k : Nat) : Option StepOut :=
  let d' := turn e.dir action
  let e1 : EnvState := { e with dir := d' }
  let v := dirVec d'
  let nh : Cell := ((headCell e).1 + v.1, (headCell e).2 + v.2)
  if outOfBounds e.n nh then
    some ⟨encode e1, -10, true, none, e1⟩
  else
    let willEat := nh = e.food
    let body := if willEat then e1.snake else e1.snake.dropLast
    if nh ∈ body then
      some ⟨encode e1, -10, true, none, e1⟩
    else
      let grown := nh :: e1.snake
      if willEat then
        match placeFood e1.n grown k with
        | none => none
        | some f => some (stepFinish { e1 with snake := grown, food := f } nh true)
      else
        some (stepFinish { e1 with snake := grown.dropLast } nh false)

/-- Python `SnakeEnv.reset`: fixed two-cell snake centered on the grid, heading
right; `k` models the RNG draw of the food placement (`none` models the
`IndexError` when no cell is free, e.g. on a 1×1 grid). -/
def resetE (n : Nat) (k : Nat) : Option (EnvState × Encoded) :=
  let mid : Int := (n / 2 : Nat)
  let snake : List Cell := [(mid, mid), (mid - 1, mid)]
  match placeFood n snake k with
  | none => none
  | some f =>
    let e : EnvState := ⟨n, 1, snake, f, 0, manhattan (mid, mid) f⟩
    some (e, encode e)

/-- The environment states reachable by `reset()` followed by any sequence
of `step(action)` calls (over all grid sizes and RNG outcomes). -/
inductive Reachable : EnvState → Prop where
  | reset : ∀ (n k : Nat) (e : EnvState) (s : Encoded),
      resetE n k = some (e, s) → Reachable e
  | step : ∀ (e : EnvState) (a : Int) (k : Nat) (out : StepOut),
      Reachable e → stepE e a k = some out → Reachable out.env

/-! ## `src/agent.py` — the tabular agent -/

/-- A per-state value vector (`np.ndarray` of float32, modelled by `ℚ`). -/
abbrev QVec := List ℚ

/-- The underlying mapping of the `defaultdict`, as an association list in
insertion order (Python dicts preserve insertion order and have unique
keys). -/
abbrev QEntries := List (Encoded × QVec)

/-- First-match association-list lookup (Python dict lookup; keys are
unique in any dict built through the API). -/
def lookupQ : QEntries → Encoded → Option QVec
  | [], _ => none
  | (key, v) :: rest, s => if key = s then some v else lookupQ rest s

/-- Replace the value stored at an existing key (`self.Q[s][a] = x` rewrites
the vector held at key `s`). -/
def setQ : QEntries → Encoded → QVec → QEntries
  | [], _, _ => []
  | (key, w) :: rest, s, v =>
    if key = s then (key, v) :: rest else (key, w) :: setQ rest s v

/-- The `QTable` object: action count plus the `defaultdict` contents. -/
structure QTable where
  actions : Nat
  Q : QEntries
deriving Repr, DecidableEq

/-- Access `self.Q[state]` on the `defaultdict`: returns the stored vector, or
lazily inserts and returns `np.zeros(actions)`.  The second component is
the table after the access (unchanged when the key was present). -/
def QTable.getQ (t : QTable) (s : Encoded) : QVec × QTable :=
  match lookupQ t.Q s with
  | some v => (v, t)
  | none =>
    let v : QVec := List.replicate t.actions 0
    (v, { t with Q := t.Q ++ [(s, v)] })

/-- Computes `float(np.max(q))`.  The `0` on the empty vector is a modelling
artifact: `np.max` raises there, but every vector produced through the API
has length `actions > 0`. -/
def listMax : QVec → ℚ
  | [] => 0
  | x :: xs => xs.foldl max x

/-- Python `QTable.act`.  Here `u` models the `random.random()` draw in `[0, 1)`; `j`
models the integer RNG draw behind `random.randrange` / `random.choice`
(reduced mod the relevant length).  Returns the chosen action and the table
after the (possibly lazily inserting) access. -/
def QTable.act (t : QTable) (s : Encoded) (eps u : ℚ) (j : Nat) : Nat × QTable :=
  if u < eps then (j % t.actions, t)
  else
    let p := t.getQ s
    let m := listMax p.1
    let idxs := (List.range p.1.length).filter (fun i => decide (p.1.getD i 0 = m))
    (idxs.getD (j % idxs.length) 0, p.2)

/-- Python `QTable.update`: the tabular Q-learning update
`Q[s][a] = qsa + alpha * (r + gamma * max(Q[s2]) - qsa)`. -/
def QTable.update (t : QTable) (s : Encoded) (a : Nat) (r : ℚ) (s2 : Encoded)
    (alpha gamma : ℚ) : QTable :=
  let p := t.getQ s
  let qsa := p.1.getD a 0
  let p2 := p.2.getQ s2
  let td := r + gamma * listMax p2.1 - qsa
  { p2.2 with Q := setQ p2.2.Q s (p.1.set a (qsa + alpha * td)) }

/-- Computes `int(np.argmax(q))` — the first index attaining the maximum. -/
def argmaxFirst (q : QVec) : Nat :=
  ((List.range q.length).filter (fun i => decide (q.getD i 0 = listMax q))).headD 0

/-- The snapshot written by `QTable.save`:
`{"actions": self.actions, "Q": dict(self.Q)}` (pickle round-trips it
bit-for-bit; the file system is abstracted away). -/
structure Snapshot where
  actions : Nat
  entries : QEntries
deriving Repr, DecidableEq

/-- Python `QTable.save` (the pickled payload). -/
def QTable.save (t : QTable) : Snapshot := ⟨t.actions, t.Q⟩

/-- Python dict assignment `d[k] = v`: overwrite when present, append when
absent. -/
def dictInsert (q : QEntries) (s : Encoded) (v : QVec) : QEntries :=
  match lookupQ q s with
  | some _ => setQ q s v
  | none => q ++ [(s, v)]

/-- Python `QTable.load`: fresh `defaultdict`, then `agent.Q[k] = np.array(v)` for
every snapshot entry in order. -/
def QTable.load (snap : Snapshot) : QTable :=
  ⟨snap.actions, snap.entries.foldl (fun acc kv => dictInsert acc kv.1 kv.2) []⟩

/-! ## `src/evaluate.py` — the greedy evaluation loop -/

/-- Action selection of `evaluate`:
`int(np.argmax(Q.Q[s])) if s in Q.Q else 1`.  The membership test guards
the `defaultdict` access, which is routed through `QTable.getQ` so that the
absence of lazy insertion is a theorem, not a modelling assumption. -/
def evalAction (t : QTable) (s : Encoded) : Nat × QTable :=
  if (lookupQ t.Q s).isSome then
    let p := t.getQ s
    (argmaxFirst p.1, p.2)
  else (1, t)

/-- One evaluation episode:
`while not done and steps < max_steps` with always-greedy selection; the
score counts `info.get("ate")` events.  `fuel` is the remaining step budget;
`ks` feeds the food-placement RNG.  A `none` score models a propagated
environment exception. -/
def runEpisode : QTable → Nat → EnvState → Encoded → Nat → List Nat →
    Option Nat × QTable
  | t, 0, _, _, score, _ => (some score, t)
  | t, fuel + 1, e, s, score, ks =>
    let p := evalAction t s
    match stepE e (p.1 : Int) (ks.headD 0) with
    | none => (none, p.2)
    | some out =>
      let score' := if out.info.getD false then score + 1 else score
      if out.done then (some score', p.2)
      else runEpisode p.2 fuel out.env out.obs score' ks.tail

/-- The episode loop of `evaluate`: `count` remaining episodes, `i` the
index of the current one; `rr i` and `kss i` feed episode `i`'s RNG. -/
def runEpisodes (n maxSteps : Nat) (rr : Nat → Nat) (kss : Nat → List Nat) :
    Nat → Nat → QTable → Option (List Nat) × QTable
  | _, 0, t => (some [], t)
  | i, c + 1, t =>
    match resetE n (rr i) with
    | none => (none, t)
    | some (e, s) =>
      match runEpisode t maxSteps e s 0 (kss i) with
      | (none, t1) => (none, t1)
      | (some sc, t1) =>
        match runEpisodes n maxSteps rr kss (i + 1) c t1 with
        | (none, t2) => (none, t2)
        | (some rest, t2) => (some (sc :: rest), t2)

/-- The aggregate statistics dict returned by `evaluate`.  `np.std` is a
square root and is represented by `varScore`, the variance it is the root
of; all other fields are exact. -/
structure EvalStats where
  episodes : Nat
  grid : Nat
  meanScore : ℚ
  varScore : ℚ
  maxScore : Nat
  minScore : Nat
deriving Repr, DecidableEq

/-- The statistics block of `evaluate`.  On an empty score list `arr.max()`
(`np.max` over a zero-size array) raises `ValueError`, modelled by `none`;
`arr.mean()` merely warns and yields `nan`, but execution never gets past
`arr.max()`. -/
def stats (totals : List Nat) (episodes n : Nat) : Option EvalStats :=
  match totals with
  | [] => none
  | x :: xs =>
    let len : ℚ := totals.length
    let qs : List ℚ := totals.map (fun v => (v : ℚ))
    let mean := qs.sum / len
    let var := (qs.map (fun v => (v - mean) ^ 2)).sum / len
    some ⟨episodes, n, mean, var, xs.foldl max x, xs.foldl min x⟩

/-- Python `evaluate(Q, episodes, n, ..., max_steps)`: run the episodes, then
aggregate.  The second component is the Q-table as left behind by the call
(the Python function mutates — or not — the caller's table in place). -/
def evaluateE (t : QTable) (episodes n maxSteps : Nat) (rr : Nat → Nat)
    (kss : Nat → List Nat) : Option EvalStats × QTable :=
  match runEpisodes n maxSteps rr kss 0 episodes t with
  | (none, t1) => (none, t1)
  | (some totals, t1) => (stats totals episodes n, t1)

/-! ## Helper lemmas about the simulator -/

lemma allCells_length (n : Nat) : (allCells n).length = n * n := by
  unfold allCells
  rw [List.flatMap, List.length_flatten, List.map_map]
  have h : (List.range n).map (List.length ∘ fun (x : Nat) => (List.range n).map
      (fun (y : Nat) => (Int.ofNat x, Int.ofNat y))) = List.replicate n n := by
    rw [List.eq_replicate_iff]
    refine ⟨by simp, ?_⟩
    intro b hb
    obtain ⟨x, hx, rfl⟩ := List.mem_map.mp hb
    simp
  rw [h, List.sum_replicate, smul_eq_mul]

lemma allCells_nodup (n : Nat) : (allCells n).Nodup := by
  unfold allCells
  rw [List.nodup_flatMap]
  refine ⟨fun x _ => ?_, ?_⟩
  · exact (List.nodup_range n).map (fun a b h => by
      have := congrArg Prod.snd h
      simpa [Int.ofNat_inj] using this)
  · have := List.pairwise_lt_range n
    apply this.imp
    intro a b hab
    intro c hc1 hc2
    obtain ⟨y1, _, rfl⟩ := List.mem_map.mp hc1
    obtain ⟨y2, _, h2⟩ := List.mem_map.mp hc2
    have := congrArg Prod.fst h2
    simp [Int.ofNat_inj] at this
    omega

/-- Pigeonhole: a snake shorter than the number of grid cells leaves a free
cell. -/
lemma freeCells_ne_nil {n : Nat} {snake : List Cell} (h : snake.length < n * n) :
    freeCells n snake ≠ [] := by
  intro hempty
  have hsub : allCells n ⊆ snake := by
    intro c hc
    by_contra hcn
    have : c ∈ freeCells n snake := by
      rw [freeCells, List.mem_filter]
      exact ⟨hc, by simpa using hcn⟩
    simp [hempty] at this
  have hle : (allCells n).length ≤ snake.length :=
    (List.subperm_of_subset (allCells_nodup n) hsub).length_le
  rw [allCells_length] at hle
  omega

lemma placeFood_isSome {n : Nat} {snake : List Cell} (h : snake.length < n * n)
    (k : Nat) : (placeFood n snake k).isSome := by
  have hne := freeCells_ne_nil h
  rw [placeFood]
  have hlen : 0 < (freeCells n snake).length := List.length_pos.mpr hne
  have hk : k % (freeCells n snake).length < (freeCells n snake).length :=
    Nat.mod_lt _ hlen
  rw [Option.isSome_iff_exists]
  exact ⟨_, List.get?_eq_get hk⟩

/-- The placed food lies among the free cells, hence off the snake. -/
lemma placeFood_not_mem {n : Nat} {snake : List Cell} {k : Nat} {f : Cell}
    (h : placeFood n snake k = some f) : f ∉ snake := by
  rw [placeFood] at h
  have hmem : f ∈ freeCells n snake := List.get?_mem h
  rw [freeCells, List.mem_filter] at hmem
  simpa using hmem.2

lemma turn_lt_four {dir : Nat} (h : dir < 4) (a : Int) : turn dir a < 4 := by
  rw [turn]
  split
  · exact Nat.mod_lt _ (by omega)
  split
  · exact Nat.mod_lt _ (by omega)
  · exact h

/-- The proposed new head cell of `step` after the relative turn. -/
def propHead (e : EnvState) (a : Int) : Cell :=
  ((headCell e).1 + (dirVec (turn e.dir a)).1, (headCell e).2 + (dirVec (turn e.dir a)).2)

/-- Case analysis of a successful `step` call: wall/body death (state
changed only by the committed turn), eating move, or plain move. -/
lemma stepE_cases {e : EnvState} {a : Int} {k : Nat} {out : StepOut}
    (h : stepE e a k = some out) :
    (out.env = { e with dir := turn e.dir a }) ∨
    (∃ f,
      out.env = { e with
        dir := turn e.dir a,
        snake := propHead e a :: e.snake,
        food := f,
        prevDist := manhattan (propHead e a) f,
        steps := e.steps + 1 } ∧
      placeFood e.n (propHead e a :: e.snake) k = some f ∧
      propHead e a ∉ e.snake) ∨
    (out.env = { e with
       dir := turn e.dir a,
       snake := (propHead e a :: e.snake).dropLast,
       prevDist := manhattan (propHead e a) e.food,
       steps := e.steps + 1 } ∧
     propHead e a ≠ e.food ∧
     propHead e a ∉ e.snake.dropLast) := by
  simp only [stepE, propHead] at h ⊢
  split at h
  · cases h
    left; rfl
  · rename_i hob
    by_cases heat : ((headCell e).1 + (dirVec (turn e.dir a)).1,
        (headCell e).2 + (dirVec (turn e.dir a)).2) = e.food
    · rw [if_pos heat, if_pos heat] at h
      split at h
      · cases h
        left; rfl
      · rename_i hbody
        split at h
        · cases h
        · rename_i f hpf
          cases h
          right; left
          exact ⟨f, by simp [stepFinish, heat], hpf, hbody⟩
    · rw [if_neg heat, if_neg heat] at h
      split at h
      · cases h
        left; rfl
      · rename_i hbody
        cases h
        right; right
        exact ⟨by simp [stepFinish], heat, hbody⟩

/-- Inversion of a successful `reset` call. -/
lemma resetE_cases {n k : Nat} {e : EnvState} {s : Encoded}
    (h : resetE n k = some (e, s)) :
    ∃ f, placeFood n [(((n / 2 : Nat) : Int), ((n / 2 : Nat) : Int)),
                      (((n / 2 : Nat) : Int) - 1, ((n / 2 : Nat) : Int))] k = some f ∧
      e = ⟨n, 1, [(((n / 2 : Nat) : Int), ((n / 2 : Nat) : Int)),
                  (((n / 2 : Nat) : Int) - 1, ((n / 2 : Nat) : Int))], f, 0,
           manhattan (((n / 2 : Nat) : Int), ((n / 2 : Nat) : Int)) f⟩ := by
  simp only [resetE] at h
  split at h
  · cases h
  · rename_i f hpf
    cases h
    exact ⟨f, hpf, rfl⟩

/-- The state invariant maintained by the simulator. -/
structure EnvInv (e : EnvState) : Prop where
  nodup : e.snake.Nodup
  twoLe : 2 ≤ e.snake.length
  dirLt : e.dir < 4
  foodFree : e.food ∉ e.snake

/-- Every reachable state satisfies the invariant. -/
lemma reachable_inv {e : EnvState} (h : Reachable e) : EnvInv e := by
  induction h with
  | reset n k e s hres =>
    obtain ⟨f, hpf, rfl⟩ := resetE_cases hres
    refine ⟨?_, by simp, by simp, placeFood_not_mem hpf⟩
    simp only [List.nodup_cons, List.mem_singleton, List.not_mem_nil, not_false_iff,
      List.nodup_nil, and_true]
    intro hc
    have := congrArg Prod.fst hc
    simp at this
    omega
  | step e a k out hr hst ih =>
    rcases stepE_cases hst with hdeath | ⟨f, henv, hpf, hnot⟩ | ⟨henv, hne, hnot⟩
    · rw [hdeath]
      exact ⟨ih.nodup, ih.twoLe, turn_lt_four ih.dirLt a, ih.foodFree⟩
    · rw [henv]
      refine ⟨?_, ?_, turn_lt_four ih.dirLt a, placeFood_not_mem hpf⟩
      · exact List.nodup_cons.mpr ⟨hnot, ih.nodup⟩
      · have := ih.twoLe
        simp only [List.length_cons]
        omega
    · rw [henv]
      have hlen := ih.twoLe
      have hsnil : e.snake ≠ [] := by
        intro hnil; rw [hnil] at hlen; simp at hlen
      have hdc : (propHead e a :: e.snake).dropLast = propHead e a :: e.snake.dropLast := by
        obtain ⟨b, rest, hbr⟩ := List.exists_cons_of_ne_nil hsnil
        rw [hbr]
        rfl
      rw [hdc]
      refine ⟨?_, ?_, turn_lt_four ih.dirLt a, ?_⟩
      · exact List.nodup_cons.mpr ⟨hnot, ih.nodup.sublist (List.dropLast_sublist _)⟩
      · simp only [List.length_cons, List.length_dropLast]
        omega
      · simp only [List.mem_cons, not_or]
        refine ⟨fun hc => hne hc.symm, fun hc => ih.foodFree ?_⟩
        exact (List.dropLast_sublist _).subset hc

/-! ## Helper lemmas about the agent table -/

lemma lookupQ_append_some {q : QEntries} {s : Encoded} {v : QVec}
    (h : lookupQ q s = some v) (r : QEntries) : lookupQ (q ++ r) s = some v := by
  induction q with
  | nil => simp [lookupQ] at h
  | cons p rest ih =>
    rw [lookupQ] at h
    rw [List.cons_append, lookupQ]
    split at h
    · rename_i hk
      rw [if_pos hk]
      exact h
    · rename_i hk
      rw [if_neg hk]
      exact ih h

lemma lookupQ_append_none {q : QEntries} {s : Encoded}
    (h : lookupQ q s = none) (r : QEntries) : lookupQ (q ++ r) s = lookupQ r s := by
  induction q with
  | nil => simp
  | cons p rest ih =>
    rw [lookupQ] at h
    rw [List.cons_append, lookupQ]
    split at h
    · cases h
    · rename_i hk
      rw [if_neg hk]
      exact ih h

lemma lookupQ_singleton (s s' : Encoded) (v : QVec) :
    lookupQ [(s, v)] s' = if s = s' then some v else none := by
  rw [lookupQ]
  split <;> simp [lookupQ]

lemma lookupQ_setQ_self {q : QEntries} {s : Encoded}
    (h : (lookupQ q s).isSome) (v : QVec) : lookupQ (setQ q s v) s = some v := by
  induction q with
  | nil => simp [lookupQ] at h
  | cons p rest ih =>
    rw [lookupQ] at h
    rw [setQ]
    split at h
    · rename_i hk
      rw [if_pos hk, lookupQ, if_pos hk]
    · rename_i hk
      rw [if_neg hk, lookupQ, if_neg hk]
      exact ih h

lemma getQ_fst (t : QTable) (s : Encoded) :
    (t.getQ s).1 = (lookupQ t.Q s).getD (List.replicate t.actions 0) := by
  rw [QTable.getQ]
  cases h : lookupQ t.Q s <;> simp [h]

lemma getQ_snd_of_present {t : QTable} {s : Encoded}
    (h : (lookupQ t.Q s).isSome) : (t.getQ s).2 = t := by
  rw [QTable.getQ]
  obtain ⟨v, hv⟩ := Option.isSome_iff_exists.mp h
  rw [hv]

lemma getQ_snd_actions (t : QTable) (s : Encoded) :
    (t.getQ s).2.actions = t.actions := by
  rw [QTable.getQ]
  cases h : lookupQ t.Q s <;> simp [h]

lemma lookupQ_getQ_self (t : QTable) (s : Encoded) :
    lookupQ (t.getQ s).2.Q s = some (t.getQ s).1 := by
  rw [QTable.getQ]
  cases h : lookupQ t.Q s with
  | none =>
    simp only
    rw [lookupQ_append_none h, lookupQ_singleton, if_pos rfl]
  | some v => simpa using h

lemma lookupQ_getQ_other {s s2 : Encoded} (t : QTable) (hne : s2 ≠ s) :
    lookupQ (t.getQ s).2.Q s2 = lookupQ t.Q s2 := by
  rw [QTable.getQ]
  cases h : lookupQ t.Q s with
  | none =>
    simp only
    cases h2 : lookupQ t.Q s2 with
    | none =>
      rw [lookupQ_append_none h2, lookupQ_singleton, if_neg (fun hc => hne hc.symm)]
    | some _ => rw [lookupQ_append_some h2]
  | some v => rfl


lemma lookupQ_getQ_of_some {t : QTable} {x : Encoded} {v : QVec} (y : Encoded)
    (h : lookupQ t.Q x = some v) : lookupQ (t.getQ y).2.Q x = some v := by
  by_cases hxy : x = y
  · subst hxy
    rw [lookupQ_getQ_self, getQ_fst, h]
    rfl
  · rw [lookupQ_getQ_other t hxy]
    exact h

lemma getD_set_self (l : List ℚ) (i : Nat) (h : i < l.length) (v : ℚ) :
    (l.set i v).getD i 0 = v := by
  rw [List.getD_eq_getElem?_getD, List.getElem?_set_self', List.getElem?_eq_getElem h]
  rfl

lemma foldl_dictInsert (q : QEntries) :
    ∀ acc : QEntries, (q.map Prod.fst).Nodup →
      (∀ x ∈ q.map Prod.fst, lookupQ acc x = none) →
      q.foldl (fun a kv => dictInsert a kv.1 kv.2) acc = acc ++ q := by
  induction q with
  | nil => intro acc _ _; simp
  | cons p rest ih =>
    intro acc hnd hdisj
    rcases p with ⟨s, v⟩
    rw [List.foldl_cons]
    have hacc : lookupQ acc s = none := hdisj s (by simp)
    have hins : dictInsert acc s v = acc ++ [(s, v)] := by rw [dictInsert, hacc]
    rw [hins]
    have hnd' : (rest.map Prod.fst).Nodup := (List.nodup_cons.mp (by simpa using hnd)).2
    have hsnotin : s ∉ rest.map Prod.fst := (List.nodup_cons.mp (by simpa using hnd)).1
    rw [ih (acc ++ [(s, v)]) hnd' ?_]
    · rw [List.append_assoc, List.singleton_append]
    · intro x hx
      have hxs : s ≠ x := fun hc => hsnotin (hc ▸ hx)
      rw [lookupQ_append_none (hdisj x (by simp [hx])), lookupQ_singleton, if_neg hxs]

/-! ## Helper lemmas about the evaluation loop -/

lemma evalAction_snd (t : QTable) (s : Encoded) : (evalAction t s).2 = t := by
  rw [evalAction]
  split
  · rename_i h
    exact getQ_snd_of_present h
  · rfl

lemma runEpisode_snd (fuel : Nat) :
    ∀ (t : QTable) (e : EnvState) (s : Encoded) (score : Nat) (ks : List Nat),
      (runEpisode t fuel e s score ks).2 = t := by
  induction fuel with
  | zero => intro t e s score ks; rfl
  | succ f ih =>
    intro t e s score ks
    rw [runEpisode]
    cases hst : stepE e ((evalAction t s).1 : Int) (ks.headD 0) with
    | none => simp [evalAction_snd]
    | some out =>
      simp only
      split
      · exact evalAction_snd t s
      · rw [ih]
        exact evalAction_snd t s

lemma runEpisodes_snd (n maxSteps : Nat) (rr : Nat → Nat) (kss : Nat → List Nat) :
    ∀ (c i : Nat) (t : QTable), (runEpisodes n maxSteps rr kss i c t).2 = t := by
  intro c
  induction c with
  | zero => intro i t; rfl
  | succ c ih =>
    intro i t
    rw [runEpisodes]
    cases hres : resetE n (rr i) with
    | none => rfl
    | some p =>
      rcases p with ⟨e, s⟩
      simp only
      rcases hep : runEpisode t maxSteps e s 0 (kss i) with ⟨r, t1⟩
      have ht1 : t1 = t := by
        have := runEpisode_snd maxSteps t e s 0 (kss i)
        rw [hep] at this
        exact this
      cases r with
      | none => simpa using ht1
      | some sc =>
        simp only
        rcases hrest : runEpisodes n maxSteps rr kss (i + 1) c t1 with ⟨r2, t2⟩
        have ht2 : t2 = t1 := by
          have := ih (i + 1) t1
          rw [hrest] at this
          exact this
        cases r2 <;> simp [ht2, ht1]

/-! ## Helper lemmas for the danger characterization -/

lemma mem_dropLast_iff {l : List Cell} (hnd : l.Nodup) (hne : l ≠ []) (x : Cell) :
    x ∈ l.dropLast ↔ x ∈ l ∧ x ≠ l.getLastD (0, 0) := by
  have hL : l.getLastD (0, 0) = l.getLast hne := by
    rw [List.getLastD_eq_getLast?, List.getLast?_eq_getLast l hne]
    rfl
  have hsplit : l.dropLast ++ [l.getLast hne] = l := List.dropLast_append_getLast hne
  have hnotin : l.getLast hne ∉ l.dropLast := by
    have hnd' := hnd
    rw [← hsplit] at hnd'
    have := (List.nodup_append.mp hnd').2.2
    intro hc
    exact this hc (List.mem_singleton_self _)
  constructor
  · intro hx
    refine ⟨(List.dropLast_sublist l).subset hx, ?_⟩
    intro hEq
    rw [hL] at hEq
    exact hnotin (hEq ▸ hx)
  · rintro ⟨hxl, hxe⟩
    rw [← hsplit] at hxl
    rcases List.mem_append.mp hxl with hx | hx
    · exact hx
    · exfalso
      rw [List.mem_singleton] at hx
      rw [hL] at hxe
      exact hxe hx

lemma dangerRel_eq_one_iff (e : EnvState) (rel : Int) (hnd : e.snake.Nodup)
    (hne : e.snake ≠ []) :
    dangerRel e rel = 1 ↔ (outOfBounds e.n (nextCellRel e rel) = true ∨
      (nextCellRel e rel ∈ e.snake ∧ nextCellRel e rel ≠ e.snake.getLastD (0, 0))) := by
  rw [← mem_dropLast_iff hnd hne]
  rw [dangerRel]
  split
  · rename_i hc
    simp only [Bool.or_eq_true, decide_eq_true_eq] at hc
    exact iff_of_true rfl hc
  · rename_i hc
    simp only [Bool.or_eq_true, decide_eq_true_eq] at hc
    exact iff_of_false (by decide) hc


/-! ## The claims -/

/-- C1 (counterexample): the claim that a wall-death `step` returns the
encoding of the state *before* the call is false — the relative turn is
committed before the bounds check, so the returned heading (and danger
flags) reflect the turned direction.  Concretely, from the fresh reset
state on a 2×2 grid, action 2 (turn right) dies on the wall and returns an
encoded state that differs from the pre-call encoding. -/
theorem step_wall_turn_committed :
    resetE 2 0 = some (⟨2, 1, [(1, 1), (0, 1)], (0, 0), 0, 2⟩, ⟨0, 1, 1, -1, -1, 1⟩) ∧
    (stepE ⟨2, 1, [(1, 1), (0, 1)], (0, 0), 0, 2⟩ 2 0).map StepOut.done = some true ∧
    (stepE ⟨2, 1, [(1, 1), (0, 1)], (0, 0), 0, 2⟩ 2 0).map StepOut.reward = some (-10) ∧
    (stepE ⟨2, 1, [(1, 1), (0, 1)], (0, 0), 0, 2⟩ 2 0).map StepOut.obs ≠
      some ⟨0, 1, 1, -1, -1, 1⟩ := by
  refine ⟨rfl, rfl, rfl, ?_⟩
  decide

/-- C1 (amended): whenever the proposed new head after the relative turn is
out of bounds, `step` returns done = true, reward = −10, and the encoding
of the pre-move state with the turn already committed: snake body, food,
step counter and distance tracker are exactly as at the start of the call,
while the heading field is the turned direction. -/
theorem step_wall_death (e : EnvState) (a : Int) (k : Nat)
    (h : outOfBounds e.n (propHead e a) = true) :
    stepE e a k = some ⟨encode { e with dir := turn e.dir a }, -10, true, none,
                        { e with dir := turn e.dir a }⟩ := by
  simp only [propHead] at h
  simp only [stepE]
  rw [if_pos h]

/-- C1 (witness): the amended wall-death theorem applied to the fresh reset
state of a 2×2 grid with the straight action. -/
theorem step_wall_death_witness :
    stepE ⟨2, 1, [(1, 1), (0, 1)], (0, 0), 0, 2⟩ 1 0 =
      some ⟨encode ⟨2, turn 1 1, [(1, 1), (0, 1)], (0, 0), 0, 2⟩, -10, true, none,
            ⟨2, turn 1 1, [(1, 1), (0, 1)], (0, 0), 0, 2⟩⟩ :=
  step_wall_death ⟨2, 1, [(1, 1), (0, 1)], (0, 0), 0, 2⟩ 1 0 (by decide)

/-- C2 (counterexample): `reset` is not total for every positive grid size —
on a 1×1 grid the two-cell snake occupies the only cell (the tail lies
off-grid at (−1, 0)), so the free-cell set is empty and `rng.choice`
raises `IndexError` (modelled by `none`). -/
theorem reset_raises_on_grid_one : resetE 1 0 = none := rfl

/-- C2 (amended): `reset` returns a result for every grid size n ≥ 2 and
every RNG draw, and `step` returns a result from any state in which the
snake, even after growing by one, does not cover the whole grid (food
placement is the only fallible operation). -/
theorem reset_step_total :
    (∀ n k : Nat, 2 ≤ n → (resetE n k).isSome = true) ∧
    (∀ (e : EnvState) (a : Int) (k : Nat), e.snake.length + 1 < e.n * e.n →
      (stepE e a k).isSome = true) := by
  constructor
  · intro n k hn
    rw [resetE]
    simp only
    have hlt : ([(((n / 2 : Nat) : Int), ((n / 2 : Nat) : Int)),
        (((n / 2 : Nat) : Int) - 1, ((n / 2 : Nat) : Int))] : List Cell).length < n * n := by
      have h4 : 2 * 2 ≤ n * n := Nat.mul_le_mul hn hn
      simp only [List.length_cons, List.length_nil]
      omega
    obtain ⟨f, hf⟩ := Option.isSome_iff_exists.mp (placeFood_isSome hlt k)
    rw [hf]
    rfl
  · intro e a k hlen
    simp only [stepE]
    split
    · rfl
    · by_cases heat : ((headCell e).1 + (dirVec (turn e.dir a)).1,
          (headCell e).2 + (dirVec (turn e.dir a)).2) = e.food
      · rw [if_pos heat, if_pos heat]
        split
        · rfl
        · have hlt : (((headCell e).1 + (dirVec (turn e.dir a)).1,
              (headCell e).2 + (dirVec (turn e.dir a)).2) :: e.snake).length < e.n * e.n := by
            simp only [List.length_cons]
            omega
          obtain ⟨f, hf⟩ := Option.isSome_iff_exists.mp (placeFood_isSome hlt k)
          rw [hf]
          rfl
      · rw [if_neg heat, if_neg heat]
        split
        · rfl
        · rfl

/-- C2 (witness): `reset` succeeds on a 5×5 grid, and `step` succeeds from
the fresh 4×4 reset state. -/
theorem reset_step_total_witness :
    (resetE 5 7).isSome = true ∧
    (stepE ⟨4, 1, [(2, 2), (1, 2)], (0, 0), 0, 4⟩ 1 3).isSome = true :=
  ⟨reset_step_total.1 5 7 (by norm_num),
   reset_step_total.2 ⟨4, 1, [(2, 2), (1, 2)], (0, 0), 0, 4⟩ 1 3 (by decide)⟩

/-- C3: `evaluate` with `episodes = 0` does not return aggregate statistics
— the empty score list reaches `arr.max()`, and `np.max` of a zero-size
array raises `ValueError` (modelled by the `none` result), contradicting
the claimed no-raise behavior. -/
theorem evaluate_zero_episodes_raises (t : QTable) (n maxSteps : Nat)
    (rr : Nat → Nat) (kss : Nat → List Nat) :
    (evaluateE t 0 n maxSteps rr kss).1 = none := rfl

/-- C4: `update(s, a, r, s2, alpha, gamma)` stores at `Q[s][a]` exactly
`old + alpha * (r + gamma * max Q[s2] − old)`, where both `Q[s]` and
`Q[s2]` read as the all-zero vector when absent (lazy initialization). -/
theorem update_is_td0 (t : QTable) (s s2 : Encoded) (a : Nat) (r alpha gamma : ℚ)
    (hwf : ∀ key v, lookupQ t.Q key = some v → v.length = t.actions)
    (ha : a < t.actions) :
    ((lookupQ (t.update s a r s2 alpha gamma).Q s).getD []).getD a 0 =
      ((lookupQ t.Q s).getD (List.replicate t.actions 0)).getD a 0 +
        alpha * (r + gamma * listMax ((lookupQ t.Q s2).getD (List.replicate t.actions 0)) -
          ((lookupQ t.Q s).getD (List.replicate t.actions 0)).getD a 0) := by
  have hq1 : (t.getQ s).1 = (lookupQ t.Q s).getD (List.replicate t.actions 0) := getQ_fst t s
  have hlen1 : (t.getQ s).1.length = t.actions := by
    rw [hq1]
    cases h : lookupQ t.Q s with
    | none => simp
    | some v => simpa using hwf s v h
  have hlook1 : lookupQ (t.getQ s).2.Q s = some (t.getQ s).1 := lookupQ_getQ_self t s
  have hlook2s : lookupQ ((t.getQ s).2.getQ s2).2.Q s = some (t.getQ s).1 :=
    lookupQ_getQ_of_some s2 hlook1
  have hq2 : ((t.getQ s).2.getQ s2).1 =
      (lookupQ t.Q s2).getD (List.replicate t.actions 0) := by
    rw [getQ_fst, getQ_snd_actions]
    by_cases hss : s2 = s
    · subst hss
      rw [hlook1, hq1]
      cases h : lookupQ t.Q s2 <;> simp [h]
    · rw [lookupQ_getQ_other t hss]
  rw [QTable.update]
  simp only
  rw [lookupQ_setQ_self (by rw [hlook2s]; rfl)]
  rw [Option.getD_some]
  rw [getD_set_self _ _ (by rw [hlen1]; exact ha)]
  rw [hq1, hq2]

/-- C4 (witness): the update formula evaluated on the empty two-action
table at action 1 with r = 5, alpha = 1/2, gamma = 9/10. -/
theorem update_is_td0_witness :
    ((lookupQ ((⟨2, []⟩ : QTable).update ⟨0, 0, 0, 0, 0, 0⟩ 1 5 ⟨0, 0, 0, 0, 0, 0⟩
        (1 / 2) (9 / 10)).Q ⟨0, 0, 0, 0, 0, 0⟩).getD []).getD 1 0 =
      ((lookupQ (⟨2, []⟩ : QTable).Q ⟨0, 0, 0, 0, 0, 0⟩).getD (List.replicate 2 0)).getD 1 0 +
        (1 / 2) * (5 + (9 / 10) *
          listMax ((lookupQ (⟨2, []⟩ : QTable).Q ⟨0, 0, 0, 0, 0, 0⟩).getD
            (List.replicate 2 0)) -
          ((lookupQ (⟨2, []⟩ : QTable).Q ⟨0, 0, 0, 0, 0, 0⟩).getD
            (List.replicate 2 0)).getD 1 0) :=
  update_is_td0 ⟨2, []⟩ ⟨0, 0, 0, 0, 0, 0⟩ ⟨0, 0, 0, 0, 0, 0⟩ 1 5 (1 / 2) (9 / 10)
    (fun key v h => by simp [lookupQ] at h) (by norm_num)

/-- C5: with epsilon = 0 `act` never takes the exploration branch (since
`random.random()` is nonnegative): it returns the element of the
duplicate-free list of all maximizer indices selected by the RNG draw
(uniform choice over that list), lazily initializing unseen keys to the
all-zero vector; and on a table whose only key holds `[1, 0, −1]` it
returns action 0 on every call. -/
theorem act_greedy_uniform_ties (t : QTable) (s : Encoded) (u : ℚ) (j : Nat)
    (hu : 0 ≤ u) :
    (∃ idxs : List Nat,
      t.act s 0 u j = (idxs.getD (j % idxs.length) 0, (t.getQ s).2) ∧
      idxs.Nodup ∧
      (∀ i, i ∈ idxs ↔
        i < ((lookupQ t.Q s).getD (List.replicate t.actions 0)).length ∧
        ((lookupQ t.Q s).getD (List.replicate t.actions 0)).getD i 0 =
          listMax ((lookupQ t.Q s).getD (List.replicate t.actions 0)))) ∧
    (QTable.act ⟨3, [(s, [1, 0, -1])]⟩ s 0 u j).1 = 0 := by
  have hex : ¬ u < (0 : ℚ) := not_lt.mpr hu
  constructor
  · refine ⟨(List.range ((lookupQ t.Q s).getD (List.replicate t.actions 0)).length).filter
      (fun i => decide (((lookupQ t.Q s).getD (List.replicate t.actions 0)).getD i 0 =
        listMax ((lookupQ t.Q s).getD (List.replicate t.actions 0)))), ?_, ?_, ?_⟩
    · rw [QTable.act, if_neg hex]
      simp only [getQ_fst]
    · exact (List.nodup_range _).filter _
    · intro i
      simp [List.mem_filter, List.mem_range]
  · rw [QTable.act, if_neg hex]
    have hget : ((⟨3, [(s, [1, 0, -1])]⟩ : QTable).getQ s).1 = [1, 0, -1] := by
      rw [QTable.getQ]
      simp [lookupQ]
    simp only [hget]
    have hidxs : ((List.range ([(1 : ℚ), 0, -1]).length).filter
        (fun i => decide ((([(1 : ℚ), 0, -1]).getD i 0) = listMax [1, 0, -1]))) = [0] := by
      decide
    rw [hidxs]
    simp [Nat.mod_one]

/-- C5 (witness): the greedy-tie theorem applied at epsilon 0, random draw
0, and choice index 7; in particular the `[1, 0, −1]` table yields 0. -/
theorem act_greedy_uniform_ties_witness :
    (QTable.act ⟨3, [(⟨0, 0, 0, 0, 0, 0⟩, [1, 0, -1])]⟩ ⟨0, 0, 0, 0, 0, 0⟩ 0 0 7).1 = 0 :=
  (act_greedy_uniform_ties ⟨3, []⟩ ⟨0, 0, 0, 0, 0, 0⟩ 0 7 (by norm_num)).2

/-- C6: `evaluate` never mutates the Q-table (the membership-guarded access
performs no lazy insertion), and for every state absent from the table the
selected action is the fixed default action 1. -/
theorem evaluate_is_readonly (t : QTable) (episodes n maxSteps : Nat)
    (rr : Nat → Nat) (kss : Nat → List Nat) :
    (evaluateE t episodes n maxSteps rr kss).2 = t ∧
    (∀ s, lookupQ t.Q s = none → (evalAction t s).1 = 1) := by
  constructor
  · rw [evaluateE]
    rcases h : runEpisodes n maxSteps rr kss 0 episodes t with ⟨r, t1⟩
    have ht1 : t1 = t := by
      have := runEpisodes_snd n maxSteps rr kss episodes 0 t
      rw [h] at this
      exact this
    cases r <;> simpa using ht1
  · intro s hs
    rw [evalAction, hs]
    rfl

/-- C6 (witness): evaluating the empty three-action table over two episodes
on a 4×4 grid leaves the table unchanged, and an unseen state selects the
default action 1. -/
theorem evaluate_is_readonly_witness :
    (evaluateE ⟨3, []⟩ 2 4 10 (fun _ => 0) (fun _ => [])).2 = ⟨3, []⟩ ∧
    (evalAction ⟨3, []⟩ ⟨0, 0, 0, 0, 0, 0⟩).1 = 1 :=
  ⟨(evaluate_is_readonly ⟨3, []⟩ 2 4 10 (fun _ => 0) (fun _ => [])).1,
   (evaluate_is_readonly ⟨3, []⟩ 2 4 10 (fun _ => 0) (fun _ => [])).2
     ⟨0, 0, 0, 0, 0, 0⟩ rfl⟩

/-- C7: in every reachable state, each danger flag of the encoded state is
1 exactly when the cell one step along the corresponding direction (front:
the heading; left/right: the heading rotated a quarter turn) is off-grid
or occupied by a snake segment other than the tail cell. -/
theorem danger_flag_characterization (e : EnvState) (h : Reachable e) :
    ((encode e).df = 1 ↔ (outOfBounds e.n (nextCellRel e 0) = true ∨
      (nextCellRel e 0 ∈ e.snake ∧ nextCellRel e 0 ≠ e.snake.getLastD (0, 0)))) ∧
    ((encode e).dl = 1 ↔ (outOfBounds e.n (nextCellRel e (-1)) = true ∨
      (nextCellRel e (-1) ∈ e.snake ∧ nextCellRel e (-1) ≠ e.snake.getLastD (0, 0)))) ∧
    ((encode e).dr = 1 ↔ (outOfBounds e.n (nextCellRel e 1) = true ∨
      (nextCellRel e 1 ∈ e.snake ∧ nextCellRel e 1 ≠ e.snake.getLastD (0, 0)))) := by
  have inv := reachable_inv h
  have hne : e.snake ≠ [] := by
    intro hnil
    have := inv.twoLe
    rw [hnil] at this
    simp at this
  exact ⟨dangerRel_eq_one_iff e 0 inv.nodup hne,
         dangerRel_eq_one_iff e (-1) inv.nodup hne,
         dangerRel_eq_one_iff e 1 inv.nodup hne⟩

/-- C7 (witness): the danger-front characterization evaluated at the fresh
reset state of a 4×4 grid. -/
theorem danger_flag_characterization_witness :
    (encode ⟨4, 1, [(2, 2), (1, 2)], (0, 0), 0, 4⟩).df = 1 ↔
      (outOfBounds 4 (nextCellRel ⟨4, 1, [(2, 2), (1, 2)], (0, 0), 0, 4⟩ 0) = true ∨
       (nextCellRel ⟨4, 1, [(2, 2), (1, 2)], (0, 0), 0, 4⟩ 0 ∈
          ([(2, 2), (1, 2)] : List Cell) ∧
        nextCellRel ⟨4, 1, [(2, 2), (1, 2)], (0, 0), 0, 4⟩ 0 ≠
          ([(2, 2), (1, 2)] : List Cell).getLastD (0, 0))) :=
  (danger_flag_characterization ⟨4, 1, [(2, 2), (1, 2)], (0, 0), 0, 4⟩
    (Reachable.reset 4 0 ⟨4, 1, [(2, 2), (1, 2)], (0, 0), 0, 4⟩
      (encode ⟨4, 1, [(2, 2), (1, 2)], (0, 0), 0, 4⟩) rfl)).1

/-- C8: in every reachable state the food cell is not a member of the snake
body — food placement chooses only among free cells, and no committed move
puts a body cell on the food. -/
theorem food_not_on_snake (e : EnvState) (h : Reachable e) : e.food ∉ e.snake :=
  (reachable_inv h).foodFree

/-- C8 (witness): the invariant evaluated at the fresh reset state of a
4×4 grid. -/
theorem food_not_on_snake_witness :
    ((0, 0) : Cell) ∉ ([(2, 2), (1, 2)] : List Cell) :=
  food_not_on_snake ⟨4, 1, [(2, 2), (1, 2)], (0, 0), 0, 4⟩
    (Reachable.reset 4 0 ⟨4, 1, [(2, 2), (1, 2)], (0, 0), 0, 4⟩
      (encode ⟨4, 1, [(2, 2), (1, 2)], (0, 0), 0, 4⟩) rfl)

/-- C9: saving a Q-table and loading the snapshot reproduces the action
count, the full key-to-vector mapping, and hence identical epsilon-0
action selection on every key (for any table whose keys are unique, as
every Python dict's are). -/
theorem save_load_roundtrip (t : QTable) (hnd : (t.Q.map Prod.fst).Nodup) :
    (QTable.load t.save).actions = t.actions ∧
    (∀ s, lookupQ (QTable.load t.save).Q s = lookupQ t.Q s) ∧
    (∀ (s : Encoded) (u : ℚ) (j : Nat),
      QTable.act (QTable.load t.save) s 0 u j = t.act s 0 u j) := by
  have hload : QTable.load t.save = t := by
    rw [QTable.load, QTable.save]
    simp only
    rw [foldl_dictInsert t.Q [] hnd (fun x _ => rfl)]
    rw [List.nil_append]
  exact ⟨by rw [hload], fun s => by rw [hload], fun s u j => by rw [hload]⟩

/-- C9 (witness): the round trip evaluated on a one-entry table. -/
theorem save_load_roundtrip_witness :
    (QTable.load (QTable.save ⟨3, [(⟨0, 0, 0, 0, 0, 0⟩, [1, 0, -1])]⟩)).actions = 3 ∧
    lookupQ (QTable.load (QTable.save ⟨3, [(⟨0, 0, 0, 0, 0, 0⟩, [1, 0, -1])]⟩)).Q
        ⟨0, 0, 0, 0, 0, 0⟩ =
      lookupQ (⟨3, [(⟨0, 0, 0, 0, 0, 0⟩, [1, 0, -1])]⟩ : QTable).Q ⟨0, 0, 0, 0, 0, 0⟩ ∧
    QTable.act (QTable.load (QTable.save ⟨3, [(⟨0, 0, 0, 0, 0, 0⟩, [1, 0, -1])]⟩))
        ⟨0, 0, 0, 0, 0, 0⟩ 0 0 5 =
      QTable.act ⟨3, [(⟨0, 0, 0, 0, 0, 0⟩, [1, 0, -1])]⟩ ⟨0, 0, 0, 0, 0, 0⟩ 0 0 5 :=
  ⟨(save_load_roundtrip ⟨3, [(⟨0, 0, 0, 0, 0, 0⟩, [1, 0, -1])]⟩ (by simp)).1,
   (save_load_roundtrip ⟨3, [(⟨0, 0, 0, 0, 0, 0⟩, [1, 0, -1])]⟩ (by simp)).2.1
     ⟨0, 0, 0, 0, 0, 0⟩,
   (save_load_roundtrip ⟨3, [(⟨0, 0, 0, 0, 0, 0⟩, [1, 0, -1])]⟩ (by simp)).2.2
     ⟨0, 0, 0, 0, 0, 0⟩ 0 5⟩

/-- C10: `step` is total in the action argument, and every action other
than 0 and 2 leaves the heading unchanged and behaves exactly like the
straight action 1 (same observation, reward, done flag, info and successor
state). -/
theorem step_invalid_action_goes_straight (e : EnvState) (a : Int) (k : Nat)
    (h0 : a ≠ 0) (h2 : a ≠ 2) :
    turn e.dir a = e.dir ∧ stepE e a k = stepE e 1 k := by
  have ht : turn e.dir a = e.dir := by rw [turn, if_neg h0, if_neg h2]
  have ht1 : turn e.dir 1 = e.dir := by rw [turn]; norm_num
  exact ⟨ht, by simp only [stepE, ht, ht1]⟩

/-- C10 (witness): action 3 from the fresh 4×4 reset state coincides with
the straight action. -/
theorem step_invalid_action_goes_straight_witness :
    turn 1 3 = 1 ∧
    stepE ⟨4, 1, [(2, 2), (1, 2)], (0, 0), 0, 4⟩ 3 0 =
      stepE ⟨4, 1, [(2, 2), (1, 2)], (0, 0), 0, 4⟩ 1 0 :=
  step_invalid_action_goes_straight ⟨4, 1, [(2, 2), (1, 2)], (0, 0), 0, 4⟩ 3 0
    (by decide) (by decide)

end SnakeRL
